import Mathlib

/-!
Verification of the IoT trust-framework gateway pipeline.

The definitions below are a shallow embedding of the JavaScript sources:
  * Gateway/src/systemValidation.js  (trend analysis and decision rules)
  * Gateway/src/blockchain.js        (canonical hashing and processAndLog)
  * Gateway/src/index.js             (ingestion gateway and durable write queue)

JavaScript numbers are modelled as either a finite rational or NaN; nullable
fields (null / undefined) are modelled with Option.
-/

namespace IoTTrust

/-- A JavaScript number: a finite numeric value or NaN. -/
inductive JNum where
  | num (q : ℚ)
  | nan
  deriving DecidableEq, Repr

/-- JS truthiness coercion `x || 0` on a nullable number:
null, undefined, NaN and 0 all coerce to 0. -/
def tsCoerce : Option JNum → ℚ
  | none => 0
  | some .nan => 0
  | some (.num q) => q

/-- JS strict equality `===` on nullable numbers:
`null === null` is true, `NaN === x` is always false. -/
def jsEqTs : Option JNum → Option JNum → Bool
  | none, none => true
  | some (.num a), some (.num b) => a == b
  | _, _ => false

/-- One historical observation used by the trend-analysis engine
(systemValidation.js).  `groupId` may be undefined (none); `newTS` and `ts`
may be null.  `source` is `"local"`, `"onchain"` or `"onchain_parse_error"`.
The `reason`/`dataHash` fields of the JS objects are never read by the
merge, dedup or analysis code and are omitted. -/
structure TrendPoint where
  groupId : Option String
  oldTS : JNum
  newTS : Option JNum
  ts : Option JNum
  source : String
  deriving DecidableEq, Repr

/-- The dedup key of buildTrustSeries: the template string
`` `${item.groupId || ''}:${item.ts || 0}` ``.  Since the numeric part of the
string contains no `:` and distinct numbers render distinctly, equality of
those strings coincides with equality of the pair
`(item.groupId || '', item.ts || 0)`, which is what we use as the key. -/
def dedupKey (p : TrendPoint) : String × ℚ := (p.groupId.getD "", tsCoerce p.ts)

/-- The exact identity a surviving point is compared on: its
`(groupId, ts)` pair. -/
def exactPair (p : TrendPoint) : Option String × Option JNum := (p.groupId, p.ts)

/-- The findIndex predicate of the dedup replacement step:
`d.groupId === item.groupId && d.ts === item.ts`.
(`===` on the possibly-undefined groupId strings is structural equality,
with `undefined === undefined` true.) -/
def jsMatch (d item : TrendPoint) : Bool :=
  d.groupId == item.groupId && jsEqTs d.ts item.ts

/-- `deduped[idx] = item` where `idx = deduped.findIndex(...)` (no-op when
findIndex returns -1). -/
def replaceFirst : List TrendPoint → TrendPoint → List TrendPoint
  | [], _ => []
  | d :: rest, item =>
    if jsMatch d item then item :: rest else d :: replaceFirst rest item

/-- One iteration of the dedup loop of buildTrustSeries.  State: the
`deduped` accumulator and the `seen` key set. -/
def dedupStep (st : List TrendPoint × List (String × ℚ)) (item : TrendPoint) :
    List TrendPoint × List (String × ℚ) :=
  if dedupKey item ∈ st.2 then
    if item.source = "local" then (replaceFirst st.1 item, st.2) else st
  else (st.1 ++ [item], dedupKey item :: st.2)

/-- The dedup loop of buildTrustSeries over the merged, sorted series. -/
def dedupSeries (l : List TrendPoint) : List TrendPoint :=
  (l.foldl dedupStep ([], [])).1

/-- The sort comparator `(a.ts || 0) - (b.ts || 0)` of buildTrustSeries,
as the relation "comparator result is non-positive". -/
def tsLE (a b : TrendPoint) : Prop := tsCoerce a.ts ≤ tsCoerce b.ts

instance : DecidableRel tsLE := fun a b =>
  inferInstanceAs (Decidable (tsCoerce a.ts ≤ tsCoerce b.ts))

/-- `[...onchain, ...local].sort((a,b) => (a.ts||0) - (b.ts||0))`.
Array.prototype.sort is stable (ES2019); insertion sort with a reflexive
total preorder places each element before the strictly-greater tail and
after earlier equal elements, and is therefore also stable. -/
def sortByTs (l : List TrendPoint) : List TrendPoint := l.insertionSort tsLE

def WINDOW_EVENTS : ℕ := 20

/-- `deduped.slice(deduped.length - WINDOW_EVENTS)` guarded by the length
check: keep only the most recent WINDOW_EVENTS points. -/
def lastWindow (l : List TrendPoint) : List TrendPoint :=
  if l.length ≤ WINDOW_EVENTS then l else l.drop (l.length - WINDOW_EVENTS)

/-- buildTrustSeries (systemValidation.js) as a function of the two fetched
point lists (`localPts` is the `local` array of the source): merge on-chain
points with local points, sort ascending by `ts || 0`, dedup preferring
local points, truncate to the window. -/
def buildTrustSeries (onchain localPts : List TrendPoint) : List TrendPoint :=
  lastWindow (dedupSeries (sortByTs (onchain ++ localPts)))

/-- The elements of `l` in the dedup-key class `k`, in order. -/
def classOf (k : String × ℚ) (l : List TrendPoint) : List TrendPoint :=
  l.filter fun p => dedupKey p = k

/-- Invariant of the dedup fold, tracked for a distinguished key class `k`
whose intended exact identity is the pair `X`: the seen set is exactly the
key set of the accumulator, accumulator keys are distinct, every
`k`-entry carries the pair `X`, a `k`-entry exists iff the processed prefix
`pre` contained a `k`-class element, and once a local `k`-class element
with pair `X` has been processed the `k`-entry is local. -/
structure DedupInv (k : String × ℚ) (X : Option String × Option JNum)
    (pre : List TrendPoint) (st : List TrendPoint × List (String × ℚ)) : Prop where
  seen_iff : ∀ k', k' ∈ st.2 ↔ k' ∈ st.1.map dedupKey
  nodup : (st.1.map dedupKey).Nodup
  entry_exact : ∀ e ∈ st.1, dedupKey e = k → exactPair e = X
  entry_iff : (∃ e ∈ st.1, dedupKey e = k) ↔ classOf k pre ≠ []
  entry_local : (∃ q ∈ pre, dedupKey q = k ∧ q.source = "local" ∧ exactPair q = X) →
      ∀ e ∈ st.1, dedupKey e = k → e.source = "local"

/-- The key-set bookkeeping invariant of the dedup fold: the seen set holds
exactly the keys of the accumulator, without duplicates. -/
structure DedupBasic (st : List TrendPoint × List (String × ℚ)) : Prop where
  seen_iff : ∀ k', k' ∈ st.2 ↔ k' ∈ st.1.map dedupKey
  nodup : (st.1.map dedupKey).Nodup

/-! ## analyzeSeries -/

/-- The trust value of a point:
`(p.newTS !== undefined && p.newTS !== null) ? Number(p.newTS) : Number(p.oldTS)`. -/
def pointVal (p : TrendPoint) : JNum := p.newTS.getD p.oldTS

/-- `Number.isNaN` guard: a finite value or nothing. -/
def numOf : JNum → Option ℚ
  | .num q => some q
  | .nan => none

/-- The loop `for (let i = 1; i < series.length; i++)` of analyzeSeries: the
consecutive pairs that survive the NaN skip, as `(i, prev, cur)` with `i`
the loop index of `cur`, used as the x coordinate. -/
def validPairsFrom : ℕ → List TrendPoint → List (ℕ × ℚ × ℚ)
  | _, [] => []
  | _, [_] => []
  | i, p :: q :: rest =>
    match numOf (pointVal p), numOf (pointVal q) with
    | some a, some b => (i, a, b) :: validPairsFrom (i + 1) (q :: rest)
    | _, _ => validPairsFrom (i + 1) (q :: rest)

def validPairs (s : List TrendPoint) : List (ℕ × ℚ × ℚ) := validPairsFrom 1 s

inductive AnalyzeResult where
  | insufficient
  | stats (drops : ℕ) (instabilityFrac : ℚ) (slope : ℚ) (samples : ℕ)
  deriving DecidableEq, Repr

def DROP_DELTA : ℚ := 10
def INSTABILITY_DELTA : ℚ := 8
def DROP_COUNT_THRESHOLD : ℕ := 3
def INSTABILITY_FRACTION : ℚ := 2/5

/-- analyzeSeries (systemValidation.js): drop count, instability fraction,
least-squares slope of trust value against loop index, sample count. -/
def analyzeSeries (s : List TrendPoint) : AnalyzeResult :=
  if s.length < 2 then .insufficient
  else
    let vp := validPairs s
    let drops := vp.countP fun t => decide (t.2.2 - t.2.1 ≤ -DROP_DELTA)
    let instab := vp.countP fun t => decide (|t.2.2 - t.2.1| ≥ INSTABILITY_DELTA)
    let points : List (ℚ × ℚ) := vp.map fun t => ((t.1 : ℚ), t.2.2)
    let sampleCount : ℕ := max 1 points.length
    let instabilityFrac : ℚ := (instab : ℚ) / (sampleCount : ℚ)
    let slope : ℚ :=
      if points.length ≥ 2 then
        let n : ℚ := points.length
        let sumX := (points.map Prod.fst).sum
        let sumY := (points.map Prod.snd).sum
        let sumXY := (points.map fun p => p.1 * p.2).sum
        let sumXX := (points.map fun p => p.1 * p.1).sum
        let denom := n * sumXX - sumX * sumX
        if denom ≠ 0 then (n * sumXY - sumX * sumY) / denom else 0
      else 0
    .stats drops instabilityFrac slope s.length

/-! ## systemValidate decision rules -/

inductive Action where
  | no_action
  | flag_for_review
  | confirm_unreliable
  | adjust_threshold_lower
  | insufficient_data
  | validation_error
  deriving DecidableEq, Repr

structure Decision where
  action : Action
  reason : Option String
  newThreshold : Option ℚ
  error : Option String
  deriving DecidableEq, Repr

/-- The decision rules of systemValidate, evaluated in order.  The body of
the third rule evaluates `Math.max(10, TRUST_THRESHOLD - 5)`, but the
identifier `TRUST_THRESHOLD` is not defined anywhere in
Gateway/src/systemValidation.js (it exists only as an environment-variable
name read in index.js and as a firmware constant), so reaching that branch
raises a ReferenceError, modelled as an `Except.error`. -/
def decideRules (a : AnalyzeResult) : Except String Decision :=
  match a with
  | .insufficient => .ok ⟨.insufficient_data, none, none, none⟩
  | .stats drops frac slope samples =>
    if drops ≥ DROP_COUNT_THRESHOLD ∧ samples ≥ 6 then
      .ok ⟨.confirm_unreliable, some "recurring_drops", none, none⟩
    else if frac ≥ INSTABILITY_FRACTION then
      .ok ⟨.flag_for_review, some "high_instability", none, none⟩
    else if slope < -2 then
      .error "TRUST_THRESHOLD is not defined"
    else .ok ⟨.no_action, none, none, none⟩

/-- systemValidate restricted to a given merged series: run the analysis and
the decision rules inside the top-level try/catch, which converts any thrown
error into a `validation_error` decision. -/
def systemValidateOn (series : List TrendPoint) : Decision :=
  match decideRules (analyzeSeries series) with
  | .ok d => d
  | .error e => ⟨.validation_error, none, none, some e⟩

/-! ## Concrete series used by the C1 and C5 theorems -/

/-- A local point of group "group-1" with the given trust value and timestamp. -/
def mkPoint (q t : ℚ) : TrendPoint :=
  ⟨some "group-1", .num q, some (.num q), some (.num t), "local"⟩

/-- Gently declining series: deltas of −5 give no drops, no instability,
and least-squares slope −5. -/
def declineSeries : List TrendPoint := [mkPoint 100 1, mkPoint 95 2, mkPoint 90 3]

/-- Sharply dropping series: six deltas of −10 give 6 drops over 7 samples
with instability fraction 1. -/
def droppingSeries : List TrendPoint :=
  [mkPoint 100 1, mkPoint 90 2, mkPoint 80 3, mkPoint 70 4,
   mkPoint 60 5, mkPoint 50 6, mkPoint 40 7]

/-- Concrete collision instance for the dedup theorem: an on-chain point
and a local point of group "g" sharing timestamp 5. -/
def c3On : TrendPoint :=
  ⟨some "g", .num 80, some (.num 80), some (.num 5), "onchain"⟩

def c3Loc : TrendPoint :=
  ⟨some "g", .num 70, some (.num 70), some (.num 5), "local"⟩

/-! ## Ingestion gateway (index.js) -/

/-- JS `<` on numbers: any comparison involving NaN is false. -/
def jsLt : JNum → JNum → Bool
  | .num a, .num b => a < b
  | _, _ => false

/-- `payload.trustA !== undefined ? Number(payload.trustA) : 100`; a present
but non-numeric field coerces to NaN under `Number(...)`. -/
def toTrust : Option JNum → JNum
  | some v => v
  | none => .num 100

/-- `localFlagged = (trustA < groupThreshold) || (trustB < groupThreshold)`
with the defaulted trust scores. -/
def localFlagged (trustA trustB : Option JNum) (threshold : JNum) : Bool :=
  jsLt (toTrust trustA) threshold || jsLt (toTrust trustB) threshold

/-- verifyApiKey (index.js): `if (!GATEWAY_API_KEY) return false;
return key && key === GATEWAY_API_KEY` — the configured key must be truthy,
the header value must be present, truthy and strictly equal to it. -/
def verifyApiKey (configured : String) (provided : Option String) : Bool :=
  if configured = "" then false
  else match provided with
    | none => false
    | some k => !(k == "") && (k == configured)

/-- The observable side effects of the /data handler, in program order:
event-store appends, socket.io emissions, the systemValidate invocation and
the write-queue enqueue. -/
inductive GEffect where
  | append (stage : String) (eventId : String)
  | emitEventUpdate (stage : String) (eventId : String)
  | emitTelemetry (eventId : String)
  | callSystemValidate (groupId : String) (deviceId : String)
  | emitSystemAlert (groupId : String)
  | emitThresholdUpdate (groupId : String) (newThreshold : JNum)
  | enqueueChainLog (eventId : String)
  deriving DecidableEq, Repr

inductive GResponse where
  | unauthorized
  | notFlagged (decision : Decision)
  | flaggedQueued (decision : Decision)
  deriving DecidableEq, Repr

/-- `Number(systemDecision.newThreshold || groupThreshold)`: an absent or
zero (falsy) newThreshold falls back to the group threshold. -/
def newThresholdVal (d : Decision) (groupThreshold : JNum) : JNum :=
  match d.newThreshold with
  | some q => if q = 0 then groupThreshold else .num q
  | none => groupThreshold

/-- The /data request handler (index.js), as a function from the request and
the outcome of the systemValidate call (`Except.error` = the awaited call
rejected) to the HTTP response and the ordered list of side effects.
The hash computation between the auth check and the threshold check has no
observable side effect and is elided; response payload fields other than
the flag and decision are likewise elided. -/
def handleData (configuredKey : String) (providedKey : Option String)
    (eventId groupId deviceId : String) (trustA trustB : Option JNum)
    (groupThreshold : JNum) (sysOutcome : Except String Decision) :
    GResponse × List GEffect :=
  if verifyApiKey configuredKey providedKey = false then (.unauthorized, [])
  else
    let lf := localFlagged trustA trustB groupThreshold
    let pre : List GEffect :=
      [.append "received" eventId, .emitEventUpdate "received" eventId,
       .emitTelemetry eventId, .callSystemValidate groupId deviceId]
    let preChain : List GEffect :=
      [.append "pre-chain" eventId, .emitEventUpdate "pre-chain" eventId]
    let queued : List GEffect :=
      [.enqueueChainLog eventId, .append "queued" eventId]
    match sysOutcome with
    | .ok d =>
      let sysEff : List GEffect :=
        [.append "system-validation" eventId,
         .emitEventUpdate "system-validation" eventId] ++
        (match d.action with
         | .confirm_unreliable => [.emitSystemAlert groupId]
         | .adjust_threshold_lower =>
             [.emitThresholdUpdate groupId (newThresholdVal d groupThreshold)]
         | .flag_for_review => [.emitSystemAlert groupId]
         | _ => [])
      let finalFlagged := lf || (d.action == .confirm_unreliable)
      if finalFlagged then
        (.flaggedQueued d, pre ++ sysEff ++ preChain ++ queued)
      else (.notFlagged d, pre ++ sysEff ++ preChain)
    | .error m =>
      let d : Decision := ⟨.validation_error, none, none, some m⟩
      let sysEff : List GEffect := [.append "system-validation-error" eventId]
      if lf then
        (.flaggedQueued d, pre ++ sysEff ++ preChain ++ queued)
      else (.notFlagged d, pre ++ sysEff ++ preChain)

/-! ## processAndLog (blockchain.js) -/

structure PLResult where
  txHash : Option String
  hash : Option String
  success : Bool
  error : Option String
  deriving DecidableEq, Repr

/-- processAndLog, with its external dependencies as parameters: whether a
contract instance and a wallet are configured, the outcome of
`keccakHash(evt)` (`Except.error` = the hashing primitive threw), and the
outcome of the awaited `contract.logTrustEvent(...)` submission plus
confirmation (`Except.error` = it rejected; the confirmed or fallback
transaction hash otherwise).  The returned Bool records whether the
on-chain call was made.  The whole body runs inside try/catch: a throw is
converted into a `success: false` result, and the catch block recomputes
`keccakHash(evt)` — deterministically the same outcome — falling back to a
null hash when it throws again. -/
def processAndLog (contractConfigured walletConfigured : Bool)
    (hashOutcome : Except String String)
    (chainOutcome : Except String String) : PLResult × Bool :=
  match hashOutcome with
  | .error e => (⟨none, none, false, some e⟩, false)
  | .ok h =>
    if contractConfigured && walletConfigured then
      match chainOutcome with
      | .ok tx => (⟨some tx, some h, true, none⟩, true)
      | .error e => (⟨none, some h, false, some e⟩, true)
    else (⟨none, some h, false, some "on-chain disabled"⟩, false)

/-! ## Durable write queue (index.js) -/

/-- A write-queue entry: the queued event object (identified by its
eventId), its flagged bit (read when publishing the flagged-event summary)
and the retry counter. -/
structure QWrapper where
  item : String
  flagged : Bool
  attempts : ℕ
  deriving DecidableEq, Repr

/-- The observable effects of one processQueue iteration, in program order. -/
inductive QEffect where
  | submit (item : String) (attempts : ℕ)
  | appendPostChain (item : String)
  | emitFinal (item : String)
  | emitFlaggedEvent (item : String)
  | pause (ms : ℕ)
  | appendPostChainFailed (item : String) (error : String)
  | emitPostChainFailed (item : String) (error : String)
  deriving DecidableEq, Repr

def maxAttempts : ℕ := 4

/-- One iteration of the processQueue while-loop over the head wrapper,
parametrized by the submission outcome: `none` when
`await processAndLog(item)` resolves (whatever its `success` field says),
`some e` when it rejects with message `e`.  Returns the new queue and the
iteration's effects. -/
def queueIteration (w : QWrapper) (rest : List QWrapper)
    (outcome : Option String) : List QWrapper × List QEffect :=
  let nextAttempt := w.attempts + 1
  match outcome with
  | none =>
    (rest,
      [.submit w.item w.attempts, .appendPostChain w.item, .emitFinal w.item] ++
      (if w.flagged then [.emitFlaggedEvent w.item] else []) ++ [.pause 500])
  | some e =>
    if nextAttempt < maxAttempts then
      (rest ++ [⟨w.item, w.flagged, nextAttempt⟩],
        [.submit w.item w.attempts, .pause (1000 * 2 ^ nextAttempt)])
    else
      (rest,
        [.submit w.item w.attempts, .appendPostChainFailed w.item e,
         .emitPostChainFailed w.item e])

/-- processQueue: drain the queue sequentially, consuming one submission
outcome per iteration (the run is cut off when the outcome list is
exhausted); the worker goes idle exactly when the queue is empty. -/
def processQueueRun :
    List QWrapper → List (Option String) → List QWrapper × List QEffect
  | q, [] => (q, [])
  | [], _ => ([], [])
  | w :: rest, o :: os =>
    let step := queueIteration w rest o
    let cont := processQueueRun step.1 os
    (cont.1, step.2 ++ cont.2)

/-- One full processQueue iteration with the awaited `processAndLog(item)`
call inlined.  processAndLog's body runs entirely inside try/catch and its
catch returns a structured `success: false` result, so the awaited promise
always fulfills and the iteration always takes the non-catch path of the
loop, whatever the submission outcome was; the structured result — which
the source embeds as the `blockchain` field of the appended `post-chain`
record — is returned alongside the effects. -/
def queueIterationChained (w : QWrapper) (rest : List QWrapper)
    (contractConfigured walletConfigured : Bool)
    (hashOutcome chainOutcome : Except String String) :
    (List QWrapper × List QEffect) × PLResult :=
  (queueIteration w rest none,
   (processAndLog contractConfigured walletConfigured hashOutcome chainOutcome).1)

/-! ## Canonical hasher (blockchain.js): stableStringify and keccakHash -/

/-- A JSON-like payload value: primitives, arrays, and maps given as their
insertion-ordered field list (a JS object cannot hold duplicate keys). -/
inductive Json where
  | null
  | bool (b : Bool)
  | num (q : ℚ)
  | str (s : String)
  | arr (elems : List Json)
  | obj (fields : List (String × Json))

/-- One character of `JSON.stringify` string escaping (quote and
backslash; further control-character escapes are irrelevant to the
theorems below, which only use that the rendering is a function of the
string). -/
def escapeChar (c : Char) : String :=
  if c = '"' ∨ c = '\\' then "\\".push c else String.mk [c]

/-- `JSON.stringify` of a string. -/
def jsonQuote (s : String) : String :=
  "\"" ++ String.join (s.data.map escapeChar) ++ "\""

/-- `JSON.stringify` of a number: a fixed deterministic rendering (only
determinism is used below). -/
def numRender (q : ℚ) : String := toString q

/-- The comparison under `Object.keys(obj).sort()`: fields ordered by key. -/
def fieldLE (a b : String × Json) : Prop := a.1 ≤ b.1

instance : DecidableRel fieldLE := fun a b =>
  inferInstanceAs (Decidable (a.1 ≤ b.1))

/-- `Object.keys(obj).sort()` applied to the field list. -/
def sortFields (fs : List (String × Json)) : List (String × Json) :=
  fs.insertionSort fieldLE

mutual
/-- stableStringify (blockchain.js): primitives by their literal
representation, arrays element-wise in order, objects with keys sorted
lexicographically, each field rendered as `"key":value`, joined with
commas and wrapped in brackets/braces. -/
def stableStringify : Json → String
  | .null => "null"
  | .bool b => if b then "true" else "false"
  | .num q => numRender q
  | .str s => jsonQuote s
  | .arr l => "[" ++ stringifyElems l ++ "]"
  | .obj fs => "\x7b" ++ stringifyFields (sortFields fs) ++ "\x7d"
termination_by v => sizeOf v
decreasing_by
  all_goals simp_wf
  all_goals
    first
      | omega
      | (have hsz : sizeOf (sortFields fs) = sizeOf fs :=
            List.Perm.sizeOf_eq_sizeOf (List.perm_insertionSort fieldLE fs)
         omega)

/-- `obj.map(stableStringify).join(',')` for arrays. -/
def stringifyElems : List Json → String
  | [] => ""
  | [v] => stableStringify v
  | v :: vs => stableStringify v ++ "," ++ stringifyElems vs
termination_by l => sizeOf l
decreasing_by all_goals simp_wf <;> omega

/-- `keys.map(k => JSON.stringify(k) + ':' + stableStringify(obj[k])).join(',')`. -/
def stringifyFields : List (String × Json) → String
  | [] => ""
  | [(key, val)] => jsonQuote key ++ ":" ++ stableStringify val
  | (key, val) :: kvs =>
      jsonQuote key ++ ":" ++ stableStringify val ++ "," ++ stringifyFields kvs
termination_by kvs => sizeOf kvs
decreasing_by all_goals simp_wf <;> omega
end

/-- keccakHash (blockchain.js): the keccak-256 digest of the UTF-8 bytes of
the canonical serialization; the digest primitive is a parameter, since
every property proved below holds for any function of the serialized
string. -/
def keccakHash (keccak : String → String) (v : Json) : String :=
  keccak (stableStringify v)

mutual
/-- Recursive permutation equivalence on payloads: identical primitives,
element-wise related arrays, and maps whose field lists coincide up to a
permutation of insertion order with recursively related values. -/
def JsonPerm : Json → Json → Prop
  | .null, .null => True
  | .bool a, .bool b => a = b
  | .num a, .num b => a = b
  | .str a, .str b => a = b
  | .arr l₁, .arr l₂ => JsonPermList l₁ l₂
  | .obj f₁, .obj f₂ => ∃ f', f₁.Perm f' ∧ JsonPermFields f' f₂
  | _, _ => False
termination_by _ w => sizeOf w

def JsonPermList : List Json → List Json → Prop
  | [], [] => True
  | v :: vs, w :: ws => JsonPerm v w ∧ JsonPermList vs ws
  | _, _ => False
termination_by _ ws => sizeOf ws

def JsonPermFields : List (String × Json) → List (String × Json) → Prop
  | [], [] => True
  | a :: rest, b :: bs => a.1 = b.1 ∧ JsonPerm a.2 b.2 ∧ JsonPermFields rest bs
  | _, _ => False
termination_by _ gs => sizeOf gs
decreasing_by
  all_goals simp_wf
  all_goals
    first
      | omega
      | (obtain ⟨kb, vb⟩ := b
         simp
         omega)
end

/-- Well-formedness of a payload as a JS value: no object level holds two
fields with the same key (a JS object cannot). -/
def NodupKeys : Json → Prop
  | .arr l => ∀ v ∈ l, NodupKeys v
  | .obj fs => (fs.map Prod.fst).Nodup ∧ ∀ kv ∈ fs, NodupKeys kv.2
  | _ => True
termination_by v => sizeOf v
decreasing_by
  all_goals simp_wf
  all_goals
    first
      | (have hlt := List.sizeOf_lt_of_mem ‹_›
         omega)
      | (have h1 := List.sizeOf_lt_of_mem ‹_›
         obtain ⟨ka, va⟩ := kv
         simp at h1 ⊢
         omega)

/-- Concrete payloads for the serialization witness: the same two fields in
the two insertion orders. -/
def c4V : Json := .obj [("b", .num 1), ("a", .str "x")]

def c4W : Json := .obj [("a", .str "x"), ("b", .num 1)]

/-! # Theorems -/

/-! ## C1 / C5: decision rules -/

/-- C1: on a series meeting the claim's antecedent (analysis ok, drops < 3,
instabilityFrac < 0.4, slope < −2), systemValidate does NOT return
`adjust_threshold_lower`: the undefined identifier `TRUST_THRESHOLD` in the
downward-trend branch raises a ReferenceError, which the top-level catch
converts into a `validation_error` decision. -/
theorem systemValidate_downward_trend_hits_reference_error :
    analyzeSeries declineSeries = .stats 0 0 (-5) 3 ∧
    (0 : ℕ) < DROP_COUNT_THRESHOLD ∧ (0 : ℚ) < INSTABILITY_FRACTION ∧ (-5 : ℚ) < -2 ∧
    systemValidateOn declineSeries =
      ⟨.validation_error, none, none, some "TRUST_THRESHOLD is not defined"⟩ ∧
    (systemValidateOn declineSeries).action ≠ .adjust_threshold_lower := by
  have h : analyzeSeries declineSeries = .stats 0 0 (-5) 3 := by
    norm_num [analyzeSeries, validPairs, validPairsFrom, pointVal, numOf,
      declineSeries, mkPoint, DROP_DELTA, INSTABILITY_DELTA]
  have h2 : systemValidateOn declineSeries =
      ⟨.validation_error, none, none, some "TRUST_THRESHOLD is not defined"⟩ := by
    rw [systemValidateOn, h]
    norm_num [decideRules, DROP_COUNT_THRESHOLD, INSTABILITY_FRACTION]
  refine ⟨h, by norm_num [DROP_COUNT_THRESHOLD], by norm_num [INSTABILITY_FRACTION],
    by norm_num, h2, by rw [h2]; exact fun hc => by cases hc⟩

/-- C5: whenever the analysis yields `drops ≥ 3` and `samples ≥ 6`, the
first decision rule fires and systemValidate returns `confirm_unreliable`
with reason `recurring_drops`, regardless of the instability fraction or
slope (strict priority order, first match wins). -/
theorem systemValidate_recurring_drops_priority
    (s : List TrendPoint) (d : ℕ) (f sl : ℚ) (n : ℕ)
    (h : analyzeSeries s = .stats d f sl n) (hd : d ≥ 3) (hn : n ≥ 6) :
    systemValidateOn s = ⟨.confirm_unreliable, some "recurring_drops", none, none⟩ := by
  unfold systemValidateOn decideRules
  rw [h]
  have : d ≥ DROP_COUNT_THRESHOLD ∧ n ≥ 6 := ⟨hd, hn⟩
  simp [this]

/-- Witness for C5 at a concrete series where rule 2's antecedent
(instabilityFrac ≥ 0.4) also holds, showing rule 1 still wins. -/
theorem systemValidate_recurring_drops_priority_witness :
    analyzeSeries droppingSeries = .stats 6 1 (-10) 7 ∧
    (1 : ℚ) ≥ INSTABILITY_FRACTION ∧
    systemValidateOn droppingSeries =
      ⟨.confirm_unreliable, some "recurring_drops", none, none⟩ := by
  have h : analyzeSeries droppingSeries = .stats 6 1 (-10) 7 := by
    norm_num [analyzeSeries, validPairs, validPairsFrom, pointVal, numOf,
      droppingSeries, mkPoint, DROP_DELTA, INSTABILITY_DELTA]
  exact ⟨h, by norm_num [INSTABILITY_FRACTION],
    systemValidate_recurring_drops_priority droppingSeries 6 1 (-10) 7
      h (by norm_num) (by norm_num)⟩

/-! ## C6 / C10: local threshold flagging -/

/-- C6: with numeric trust scores the local flag is exactly
`(trustA < T) || (trustB < T)`; at T = 60 the boundary cases
(59, 100) and (60, 100) flag and do not flag respectively. -/
theorem localFlagged_threshold_rule (a b t : ℚ) :
    localFlagged (some (.num a)) (some (.num b)) (.num t) =
      (decide (a < t) || decide (b < t)) ∧
    localFlagged (some (.num 59)) (some (.num 100)) (.num 60) = true ∧
    localFlagged (some (.num 60)) (some (.num 100)) (.num 60) = false :=
  ⟨rfl, by norm_num [localFlagged, jsLt, toTrust],
    by norm_num [localFlagged, jsLt, toTrust]⟩

/-- C10: a present but non-numeric score is NaN, whose threshold comparison
is always false, so two non-numeric scores never set the local flag; absent
scores default to 100 and never set the flag for thresholds ≤ 100. -/
theorem localFlagged_nan_and_default (t : JNum) (q : ℚ) (hq : q ≤ 100) :
    jsLt .nan t = false ∧
    localFlagged (some .nan) (some .nan) t = false ∧
    localFlagged none none (.num q) = false := by
  have hn : jsLt .nan t = false := by cases t <;> rfl
  refine ⟨hn, by simp [localFlagged, toTrust, hn], ?_⟩
  simp [localFlagged, toTrust, jsLt]
  exact hq

/-- Witness for C10 at threshold 100 (and a concrete NaN comparison). -/
theorem localFlagged_nan_and_default_witness :
    jsLt .nan (.num 60) = false ∧
    localFlagged (some .nan) (some .nan) (.num 60) = false ∧
    localFlagged none none (.num 100) = false :=
  localFlagged_nan_and_default (.num 60) 100 (by norm_num)

/-! ## C7 / C8: gateway effect ordering -/

/-- C7: a missing or wrong credential header fails verifyApiKey, the gateway
answers 401 and performs no side effects: nothing is appended, published,
or enqueued. -/
theorem auth_failure_no_side_effects (configuredKey : String)
    (providedKey : Option String) (eventId groupId deviceId : String)
    (trustA trustB : Option JNum) (groupThreshold : JNum)
    (sysOutcome : Except String Decision)
    (h : ∀ k, providedKey = some k → k ≠ configuredKey) :
    handleData configuredKey providedKey eventId groupId deviceId
      trustA trustB groupThreshold sysOutcome = (.unauthorized, []) := by
  have hv : verifyApiKey configuredKey providedKey = false := by
    unfold verifyApiKey
    cases providedKey with
    | none => simp
    | some k =>
      have : (k == configuredKey) = false := by
        simp only [beq_eq_false_iff_ne, ne_eq]
        exact h k rfl
      simp [this]
  simp [handleData, hv]

/-- Witness for C7: a request with the header missing is rejected with no
side effects. -/
theorem auth_failure_no_side_effects_witness :
    handleData "secret-key" none "evt-1" "group-1" "esp32-01" none none
      (.num 60) (.ok ⟨.no_action, none, none, none⟩) = (.unauthorized, []) :=
  auth_failure_no_side_effects "secret-key" none "evt-1" "group-1" "esp32-01"
    none none (.num 60) (.ok ⟨.no_action, none, none, none⟩)
    (fun _ hk => by cases hk)

/-- C8: on every authenticated submission, the effect trace starts with the
`received` append, the `received` live-state publish (the event_update and
telemetry emissions), and only then the systemValidate invocation —
whatever the analysis outcome (success or rejection) is. -/
theorem received_published_before_validation (configuredKey : String)
    (providedKey : Option String) (eventId groupId deviceId : String)
    (trustA trustB : Option JNum) (groupThreshold : JNum)
    (sysOutcome : Except String Decision)
    (h : verifyApiKey configuredKey providedKey = true) :
    ∃ rest, (handleData configuredKey providedKey eventId groupId deviceId
        trustA trustB groupThreshold sysOutcome).2 =
      .append "received" eventId :: .emitEventUpdate "received" eventId ::
      .emitTelemetry eventId :: .callSystemValidate groupId deviceId :: rest := by
  unfold handleData
  rw [h, if_neg (by simp)]
  cases sysOutcome with
  | ok d => dsimp only; split <;> exact ⟨_, rfl⟩
  | error m => dsimp only; split <;> exact ⟨_, rfl⟩

/-- Witness for C8 on a concrete authenticated request whose analysis
rejects: the trace still begins with append/publish of `received` before
the systemValidate call. -/
theorem received_published_before_validation_witness :
    ∃ rest, (handleData "secret-key" (some "secret-key") "evt-1" "group-1"
        "esp32-01" (some (.num 50)) (some (.num 90)) (.num 60)
        (.error "getLogs failed")).2 =
      .append "received" "evt-1" :: .emitEventUpdate "received" "evt-1" ::
      .emitTelemetry "evt-1" :: .callSystemValidate "group-1" "esp32-01" :: rest :=
  received_published_before_validation "secret-key" (some "secret-key")
    "evt-1" "group-1" "esp32-01" (some (.num 50)) (some (.num 90)) (.num 60)
    (.error "getLogs failed") (by simp [verifyApiKey])

/-! ## C9: processAndLog error handling -/

/-- C9: processAndLog never propagates an exception — every input yields a
structured result.  When the contract or wallet is missing it makes no
on-chain call and returns `{txHash: null, success: false,
error: 'on-chain disabled'}` still carrying the computed hash; when hashing
throws, the error message is returned with success false and no on-chain
call; when the on-chain call rejects, its message is returned with success
false; the call succeeds exactly in the remaining case. -/
theorem processAndLog_error_handling (c w : Bool) (h tx e m : String)
    (chain : Except String String) :
    processAndLog c w (.error m) chain = (⟨none, none, false, some m⟩, false) ∧
    processAndLog false w (.ok h) chain =
      (⟨none, some h, false, some "on-chain disabled"⟩, false) ∧
    processAndLog c false (.ok h) chain =
      (⟨none, some h, false, some "on-chain disabled"⟩, false) ∧
    processAndLog true true (.ok h) (.error e) =
      (⟨none, some h, false, some e⟩, true) ∧
    processAndLog true true (.ok h) (.ok tx) =
      (⟨some tx, some h, true, none⟩, true) :=
  ⟨rfl, by cases chain <;> rfl, by cases c <;> cases chain <;> rfl, rfl, rfl⟩

/-! ## C2: the write-queue retry path is unreachable for ledger failures -/

/-- C2: the claimed retry/backoff behavior never happens for a failed
ledger submission.  processQueue's catch branch (re-enqueue with
incremented counter, exponential backoff, `post-chain-failed` after the
4th failure) runs only when `await processAndLog(item)` rejects — but
processAndLog catches everything and always resolves, reporting failure
only through `success: false` in its result, which the loop never
inspects.  So on a failing submission the iteration takes the resolve
path, whatever the outcome (first conjunct, for every configuration and
every hash/chain outcome), and at a concrete failing submission (contract
and wallet configured, the transaction rejecting) the flagged item is
submitted once, a `post-chain` record embedding the `success: false`
result is appended, the final state and flagged summary are published, the
worker pauses 500 ms, and the item is dropped: the queue is empty after
one iteration and the trace holds no second submission, no backoff pause
and no `post-chain-failed` record. -/
theorem queue_ledger_failure_no_retry (w : QWrapper) (rest : List QWrapper)
    (c wl : Bool) (hashOutcome chainOutcome : Except String String) :
    (queueIterationChained w rest c wl hashOutcome chainOutcome).1 =
      queueIteration w rest none ∧
    queueIterationChained ⟨"evt-1", true, 0⟩ [] true true
        (.ok "0xabc") (.error "tx rejected") =
      (([],
        [.submit "evt-1" 0, .appendPostChain "evt-1", .emitFinal "evt-1",
         .emitFlaggedEvent "evt-1", .pause 500]),
       ⟨none, some "0xabc", false, some "tx rejected"⟩) ∧
    processQueueRun [⟨"evt-1", true, 0⟩] [none] =
      ([],
       [.submit "evt-1" 0, .appendPostChain "evt-1", .emitFinal "evt-1",
        .emitFlaggedEvent "evt-1", .pause 500]) ∧
    (∀ e', QEffect.appendPostChainFailed "evt-1" e' ∉
      (processQueueRun [⟨"evt-1", true, 0⟩] [none]).2) ∧
    (∀ a', a' ≠ 0 → QEffect.submit "evt-1" a' ∉
      (processQueueRun [⟨"evt-1", true, 0⟩] [none]).2) := by
  refine ⟨rfl, rfl, rfl, ?_, ?_⟩
  · intro e'
    simp [processQueueRun, queueIteration]
  · intro a' ha
    simp [processQueueRun, queueIteration]
    exact ha

/-- Witness for the C2 theorem's conditional conjunct: a second submission
attempt (counter 1) indeed never appears in the single-iteration trace. -/
theorem queue_ledger_failure_no_retry_witness :
    (1 : ℕ) ≠ 0 ∧ QEffect.submit "evt-1" 1 ∉
      (processQueueRun [⟨"evt-1", true, 0⟩] [none]).2 :=
  ⟨one_ne_zero,
    (queue_ledger_failure_no_retry ⟨"evt-1", true, 0⟩ [] true true
      (.ok "0xabc") (.error "tx rejected")).2.2.2.2 1 one_ne_zero⟩

/-! ## C3: merge/dedup invariants of buildTrustSeries -/

theorem jsEqTs_iff : ∀ a b : Option JNum,
    jsEqTs a b = true ↔ a = b ∧ a ≠ some JNum.nan
  | none, none => by simp [jsEqTs]
  | none, some (.num q) => by simp [jsEqTs]
  | none, some .nan => by simp [jsEqTs]
  | some (.num p), none => by simp [jsEqTs]
  | some (.num p), some (.num q) => by simp [jsEqTs]
  | some (.num p), some .nan => by simp [jsEqTs]
  | some .nan, none => by simp [jsEqTs]
  | some .nan, some (.num q) => by simp [jsEqTs]
  | some .nan, some .nan => by simp [jsEqTs]

theorem jsMatch_iff (d i : TrendPoint) :
    jsMatch d i = true ↔ d.groupId = i.groupId ∧ d.ts = i.ts ∧ d.ts ≠ some JNum.nan := by
  simp [jsMatch, jsEqTs_iff, and_assoc]

theorem jsMatch_key {d i : TrendPoint} (h : jsMatch d i = true) :
    dedupKey d = dedupKey i := by
  obtain ⟨h1, h2, _⟩ := (jsMatch_iff d i).1 h
  simp [dedupKey, h1, h2]

theorem replaceFirst_map_key (l : List TrendPoint) (i : TrendPoint) :
    (replaceFirst l i).map dedupKey = l.map dedupKey := by
  induction l with
  | nil => rfl
  | cons d rest ih =>
    by_cases h : jsMatch d i = true
    · simp [replaceFirst, h, jsMatch_key h]
    · simp [replaceFirst, h, ih]

theorem mem_replaceFirst {e : TrendPoint} {l : List TrendPoint} {i : TrendPoint}
    (h : e ∈ replaceFirst l i) :
    e ∈ l ∨ (e = i ∧ ∃ d ∈ l, jsMatch d i = true) := by
  induction l with
  | nil => simp [replaceFirst] at h
  | cons d rest ih =>
    by_cases hm : jsMatch d i = true
    · simp only [replaceFirst, hm, if_true] at h
      rcases List.mem_cons.1 h with h | h
      · exact Or.inr ⟨h, d, List.mem_cons_self d rest, hm⟩
      · exact Or.inl (List.mem_cons_of_mem d h)
    · simp only [replaceFirst, hm, if_false] at h
      rcases List.mem_cons.1 h with h | h
      · exact Or.inl (h ▸ List.mem_cons_self d rest)
      · rcases ih h with h' | ⟨he, d', hd', hm'⟩
        · exact Or.inl (List.mem_cons_of_mem d h')
        · exact Or.inr ⟨he, d', List.mem_cons_of_mem d hd', hm'⟩

theorem replaceFirst_key_entry_eq {l : List TrendPoint} {i d₀ : TrendPoint}
    (hnd : (l.map dedupKey).Nodup) (hd₀ : d₀ ∈ l) (hm : jsMatch d₀ i = true) :
    ∀ e ∈ replaceFirst l i, dedupKey e = dedupKey i → e = i := by
  induction l with
  | nil => simp at hd₀
  | cons d rest ih =>
    have hnd' : (rest.map dedupKey).Nodup := (List.nodup_cons.1 hnd).2
    have hdnotin : dedupKey d ∉ rest.map dedupKey := (List.nodup_cons.1 hnd).1
    by_cases hmatch : jsMatch d i = true
    · intro e he hk
      simp only [replaceFirst, hmatch, if_true] at he
      rcases List.mem_cons.1 he with h | h
      · exact h
      · exfalso
        apply hdnotin
        have : dedupKey d = dedupKey e := by rw [jsMatch_key hmatch, ← hk]
        rw [this]
        exact List.mem_map_of_mem dedupKey h
    · intro e he hk
      simp only [replaceFirst, hmatch, if_false] at he
      have hd₀rest : d₀ ∈ rest := by
        rcases List.mem_cons.1 hd₀ with h | h
        · exact absurd (h ▸ hm) hmatch
        · exact h
      rcases List.mem_cons.1 he with h | h
      · exfalso
        apply hdnotin
        have : dedupKey d = dedupKey d₀ := by
          rw [h] at hk
          rw [hk, ← jsMatch_key hm]
        rw [this]
        exact List.mem_map_of_mem dedupKey hd₀rest
      · exact ih hnd' hd₀rest e h hk

theorem mem_classOf {p : TrendPoint} {k : String × ℚ} {l : List TrendPoint} :
    p ∈ classOf k l ↔ p ∈ l ∧ dedupKey p = k := by
  simp [classOf]

theorem classOf_append (k : String × ℚ) (l₁ l₂ : List TrendPoint) :
    classOf k (l₁ ++ l₂) = classOf k l₁ ++ classOf k l₂ := by
  simp [classOf]

theorem classOf_cons_of_key {k : String × ℚ} {j : TrendPoint}
    (hj : dedupKey j = k) (l : List TrendPoint) :
    classOf k (j :: l) = j :: classOf k l := by
  simp [classOf, hj]

/-- Stability of the sort: filtering by a predicate that only holds within a
single comparator class commutes with orderedInsert. -/
theorem filter_orderedInsert_class (P : TrendPoint → Bool)
    (hP : ∀ x y, P x = true → P y = true → tsCoerce x.ts = tsCoerce y.ts)
    (a : TrendPoint) (s : List TrendPoint) :
    (List.orderedInsert tsLE a s).filter P =
      if P a then a :: s.filter P else s.filter P := by
  induction s with
  | nil => simp [List.orderedInsert, List.filter_cons]
  | cons b t ih =>
    by_cases hle : tsLE a b
    · simp only [List.orderedInsert, if_pos hle, List.filter_cons]
    · simp only [List.orderedInsert, if_neg hle, List.filter_cons, ih]
      by_cases hpa : P a = true
      · have hpb : P b = false := by
          cases h2 : P b with
          | false => rfl
          | true => exact absurd (le_of_eq (hP a b hpa h2)) hle
        simp [hpa, hpb]
      · simp [hpa]

/-- Stability of the sort: class-restricted subsequences survive
insertionSort unchanged. -/
theorem filter_sortByTs_class (P : TrendPoint → Bool)
    (hP : ∀ x y, P x = true → P y = true → tsCoerce x.ts = tsCoerce y.ts)
    (l : List TrendPoint) :
    (sortByTs l).filter P = l.filter P := by
  induction l with
  | nil => rfl
  | cons a t ih =>
    have ih' : (List.insertionSort tsLE t).filter P = t.filter P := ih
    show (List.orderedInsert tsLE a (List.insertionSort tsLE t)).filter P = _
    rw [filter_orderedInsert_class P hP, ih', List.filter_cons]

theorem classOf_sortByTs (k : String × ℚ) (l : List TrendPoint) :
    classOf k (sortByTs l) = classOf k l :=
  filter_sortByTs_class _
    (fun x y hx hy => by
      have hx' : dedupKey x = k := of_decide_eq_true hx
      have hy' : dedupKey y = k := of_decide_eq_true hy
      have : (dedupKey x).2 = (dedupKey y).2 := by rw [hx', hy']
      simpa [dedupKey] using this) l

theorem mem_sortByTs {p : TrendPoint} {l : List TrendPoint} :
    p ∈ sortByTs l ↔ p ∈ l :=
  (List.perm_insertionSort tsLE l).mem_iff

/-! ### The basic dedup invariant and dedup-key uniqueness (clause 1) -/

theorem dedupBasic_step (st : List TrendPoint × List (String × ℚ))
    (i : TrendPoint) (inv : DedupBasic st) : DedupBasic (dedupStep st i) := by
  by_cases hseen : dedupKey i ∈ st.2
  · by_cases hloc : i.source = "local"
    · refine ⟨?_, ?_⟩
      · intro k'
        simp only [dedupStep, if_pos hseen, if_pos hloc]
        rw [replaceFirst_map_key]
        exact inv.seen_iff k'
      · simp only [dedupStep, if_pos hseen, if_pos hloc]
        rw [replaceFirst_map_key]
        exact inv.nodup
    · simp only [dedupStep, if_pos hseen, if_neg hloc]
      exact inv
  · refine ⟨?_, ?_⟩
    · intro k'
      simp only [dedupStep, if_neg hseen, List.map_append, List.map_cons,
        List.map_nil, List.mem_append, List.mem_cons, List.mem_singleton,
        List.not_mem_nil, or_false]
      rw [inv.seen_iff k']
      tauto
    · simp only [dedupStep, if_neg hseen, List.map_append, List.map_cons, List.map_nil]
      have hnotin : dedupKey i ∉ st.1.map dedupKey := fun hc =>
        hseen ((inv.seen_iff (dedupKey i)).2 hc)
      simp [List.nodup_append, inv.nodup, hnotin]

theorem dedupBasic_fold (l : List TrendPoint) :
    ∀ st, DedupBasic st → DedupBasic (l.foldl dedupStep st) := by
  induction l with
  | nil => intro st h; exact h
  | cons i rest ih => intro st h; exact ih _ (dedupBasic_step st i h)

theorem dedupSeries_key_nodup (l : List TrendPoint) :
    ((dedupSeries l).map dedupKey).Nodup :=
  (dedupBasic_fold l ([], []) ⟨by simp, by simp⟩).nodup

/-! ### The full dedup invariant (clause 2: local points win collisions) -/

theorem key_of_exact {e : TrendPoint} {k : String × ℚ}
    {X : Option String × Option JNum}
    (hk : (X.1.getD "", tsCoerce X.2) = k) (he : exactPair e = X) :
    dedupKey e = k := by
  have h1 : e.groupId = X.1 := congrArg Prod.fst he
  have h2 : e.ts = X.2 := congrArg Prod.snd he
  rw [dedupKey, h1, h2, hk]

theorem classOf_append_singleton_ne (k : String × ℚ)
    (pre : List TrendPoint) (i : TrendPoint) :
    classOf k (pre ++ [i]) ≠ [] ↔ (classOf k pre ≠ [] ∨ dedupKey i = k) := by
  rw [classOf_append]
  by_cases hik : dedupKey i = k
  · simp [classOf, hik]
  · simp [classOf, hik]

theorem dedupInv_step {k : String × ℚ} {X : Option String × Option JNum}
    {pre : List TrendPoint} {st : List TrendPoint × List (String × ℚ)}
    {i : TrendPoint}
    (hk : (X.1.getD "", tsCoerce X.2) = k)
    (hXts : X.2 ≠ some JNum.nan)
    (hhead : classOf k pre = [] → dedupKey i = k → exactPair i = X)
    (inv : DedupInv k X pre st) :
    DedupInv k X (pre ++ [i]) (dedupStep st i) := by
  by_cases hseen : dedupKey i ∈ st.2
  · by_cases hloc : i.source = "local"
    · -- replacement branch
      have hRF : dedupStep st i = (replaceFirst st.1 i, st.2) := by
        simp [dedupStep, hseen, hloc]
      rw [hRF]
      have hkeys : (replaceFirst st.1 i).map dedupKey = st.1.map dedupKey :=
        replaceFirst_map_key st.1 i
      have hexists : (∃ e ∈ replaceFirst st.1 i, dedupKey e = k) ↔
          (∃ e ∈ st.1, dedupKey e = k) := by
        constructor
        · rintro ⟨e, he, hek⟩
          have : k ∈ st.1.map dedupKey := by
            rw [← hkeys]
            exact hek ▸ List.mem_map_of_mem dedupKey he
          obtain ⟨e', he', hek'⟩ := List.mem_map.1 this
          exact ⟨e', he', hek'⟩
        · rintro ⟨e, he, hek⟩
          have : k ∈ (replaceFirst st.1 i).map dedupKey := by
            rw [hkeys]
            exact hek ▸ List.mem_map_of_mem dedupKey he
          obtain ⟨e', he', hek'⟩ := List.mem_map.1 this
          exact ⟨e', he', hek'⟩
      refine ⟨?_, ?_, ?_, ?_, ?_⟩
      · intro k'; rw [show ((replaceFirst st.1 i, st.2) :
          List TrendPoint × List (String × ℚ)).1.map dedupKey
            = st.1.map dedupKey from hkeys]
        exact inv.seen_iff k'
      · exact hkeys ▸ inv.nodup
      · intro e he hek
        rcases mem_replaceFirst he with h | ⟨rfl, d, hd, hmd⟩
        · exact inv.entry_exact e h hek
        · have hkd : dedupKey d = dedupKey e := jsMatch_key hmd
          have hdX : exactPair d = X := inv.entry_exact d hd (hkd.trans hek)
          obtain ⟨hg1, hts1, _⟩ := (jsMatch_iff d e).1 hmd
          calc exactPair e = exactPair d := by rw [exactPair, exactPair, hg1, hts1]
            _ = X := hdX
      · rw [show ((replaceFirst st.1 i, st.2) :
          List TrendPoint × List (String × ℚ)).1 = replaceFirst st.1 i from rfl]
        rw [hexists, inv.entry_iff, classOf_append_singleton_ne]
        constructor
        · exact Or.inl
        · rintro (h | hik)
          · exact h
          · intro hc
            have : k ∈ st.2 := hik ▸ hseen
            have : k ∈ st.1.map dedupKey := (inv.seen_iff k).1 this
            obtain ⟨e₀, he₀, he₀k⟩ := List.mem_map.1 this
            exact (inv.entry_iff.1 ⟨e₀, he₀, he₀k⟩) hc
      · rintro ⟨q, hqmem, hqk, hqloc, hqX⟩ e he hek
        rcases List.mem_append.1 hqmem with hqpre | hqi
        · have hall := inv.entry_local ⟨q, hqpre, hqk, hqloc, hqX⟩
          rcases mem_replaceFirst he with h | ⟨rfl, _⟩
          · exact hall e h hek
          · exact hloc
        · have hqi' : q = i := List.mem_singleton.1 hqi
          subst hqi'
          have hkseen : k ∈ st.2 := hqk ▸ hseen
          obtain ⟨e₀, he₀, he₀k⟩ := List.mem_map.1 ((inv.seen_iff k).1 hkseen)
          have he₀X : exactPair e₀ = X := inv.entry_exact e₀ he₀ he₀k
          have hm : jsMatch e₀ q = true := by
            apply (jsMatch_iff e₀ q).2
            have h1 : e₀.groupId = X.1 := congrArg Prod.fst he₀X
            have h2 : e₀.ts = X.2 := congrArg Prod.snd he₀X
            have h3 : q.groupId = X.1 := congrArg Prod.fst hqX
            have h4 : q.ts = X.2 := congrArg Prod.snd hqX
            exact ⟨h1.trans h3.symm, h2.trans h4.symm, h2 ▸ hXts⟩
          have heq : e = q :=
            replaceFirst_key_entry_eq inv.nodup he₀ hm e he (hek.trans hqk.symm)
          rw [heq]; exact hqloc
    · -- seen, non-local: dropped
      have hdrop : dedupStep st i = st := by simp [dedupStep, hseen, hloc]
      rw [hdrop]
      refine ⟨inv.seen_iff, inv.nodup, inv.entry_exact, ?_, ?_⟩
      · rw [inv.entry_iff, classOf_append_singleton_ne]
        constructor
        · exact Or.inl
        · rintro (h | hik)
          · exact h
          · intro hc
            have : k ∈ st.2 := hik ▸ hseen
            obtain ⟨e₀, he₀, he₀k⟩ := List.mem_map.1 ((inv.seen_iff k).1 this)
            exact (inv.entry_iff.1 ⟨e₀, he₀, he₀k⟩) hc
      · rintro ⟨q, hqmem, hqk, hqloc, hqX⟩
        rcases List.mem_append.1 hqmem with hqpre | hqi
        · exact inv.entry_local ⟨q, hqpre, hqk, hqloc, hqX⟩
        · exact absurd ((List.mem_singleton.1 hqi) ▸ hqloc) hloc
  · -- fresh key: pushed
    have hpush : dedupStep st i = (st.1 ++ [i], dedupKey i :: st.2) := by
      simp [dedupStep, hseen]
    rw [hpush]
    have hclspre : dedupKey i = k → classOf k pre = [] := by
      intro hik
      by_contra hc
      obtain ⟨e₀, he₀, he₀k⟩ := (inv.entry_iff).2 hc
      have : k ∈ st.1.map dedupKey := he₀k ▸ List.mem_map_of_mem dedupKey he₀
      exact hseen (hik ▸ (inv.seen_iff k).2 this)
    refine ⟨?_, ?_, ?_, ?_, ?_⟩
    · intro k'
      simp only [List.map_append, List.map_cons, List.map_nil, List.mem_append,
        List.mem_cons, List.mem_singleton, List.not_mem_nil, or_false]
      rw [inv.seen_iff k']
      tauto
    · simp only [List.map_append, List.map_cons, List.map_nil]
      have hnotin : dedupKey i ∉ st.1.map dedupKey := fun hc =>
        hseen ((inv.seen_iff (dedupKey i)).2 hc)
      simp [List.nodup_append, inv.nodup, hnotin]
    · intro e he hek
      rcases List.mem_append.1 he with h | h
      · exact inv.entry_exact e h hek
      · have he' : e = i := List.mem_singleton.1 h
        subst he'
        exact hhead (hclspre hek) hek
    · rw [classOf_append_singleton_ne]
      constructor
      · rintro ⟨e, he, hek⟩
        rcases List.mem_append.1 he with h | h
        · exact Or.inl ((inv.entry_iff).1 ⟨e, h, hek⟩)
        · exact Or.inr ((List.mem_singleton.1 h) ▸ hek)
      · rintro (h | hik)
        · obtain ⟨e, he, hek⟩ := (inv.entry_iff).2 h
          exact ⟨e, List.mem_append_left _ he, hek⟩
        · exact ⟨i, List.mem_append_right _ (List.mem_singleton_self i), hik⟩
    · rintro ⟨q, hqmem, hqk, hqloc, hqX⟩ e he hek
      rcases List.mem_append.1 hqmem with hqpre | hqi
      · have hcls : classOf k pre ≠ [] := by
          intro hc
          have : q ∈ classOf k pre := mem_classOf.2 ⟨hqpre, hqk⟩
          rw [hc] at this
          simp at this
        obtain ⟨e₀, he₀, he₀k⟩ := (inv.entry_iff).2 hcls
        have hkseen : k ∈ st.2 :=
          (inv.seen_iff k).2 (he₀k ▸ List.mem_map_of_mem dedupKey he₀)
        rcases List.mem_append.1 he with h | h
        · exact inv.entry_local ⟨q, hqpre, hqk, hqloc, hqX⟩ e h hek
        · exfalso
          have hei : e = i := List.mem_singleton.1 h
          rw [hei] at hek
          exact hseen (by rw [hek]; exact hkseen)
      · have hqi' : q = i := List.mem_singleton.1 hqi
        subst hqi'
        rcases List.mem_append.1 he with h | h
        · exfalso
          have hmap : k ∈ st.1.map dedupKey := by
            rw [← hek]; exact List.mem_map_of_mem dedupKey h
          have hk2 : k ∈ st.2 := (inv.seen_iff k).2 hmap
          rw [← hqk] at hk2
          exact hseen hk2
        · rw [List.mem_singleton.1 h]; exact hqloc

theorem dedupInv_init (k : String × ℚ) (X : Option String × Option JNum) :
    DedupInv k X [] ([], []) := by
  refine ⟨by simp, by simp, by simp, by simp [classOf], by simp⟩

theorem dedupInv_fold {k : String × ℚ} {X : Option String × Option JNum}
    (hk : (X.1.getD "", tsCoerce X.2) = k) (hXts : X.2 ≠ some JNum.nan) :
    ∀ (rest pre : List TrendPoint) (st : List TrendPoint × List (String × ℚ)),
      DedupInv k X pre st →
      (∀ p₁ j p₂, pre ++ rest = p₁ ++ j :: p₂ → classOf k p₁ = [] →
        dedupKey j = k → exactPair j = X) →
      DedupInv k X (pre ++ rest) (rest.foldl dedupStep st) := by
  intro rest
  induction rest with
  | nil =>
    intro pre st inv _
    simpa using inv
  | cons i rest' ih =>
    intro pre st inv hhead
    have heq : pre ++ i :: rest' = (pre ++ [i]) ++ rest' := by simp
    have hstep : DedupInv k X (pre ++ [i]) (dedupStep st i) :=
      dedupInv_step hk hXts
        (fun hcls hik => hhead pre i rest' rfl hcls hik) inv
    have hrest := ih (pre ++ [i]) (dedupStep st i) hstep
      (fun p₁ j p₂ hsplit hcls hjk =>
        hhead p₁ j p₂ (by rw [heq, hsplit]) hcls hjk)
    rw [heq]
    exact hrest

theorem dedupInv_main {k : String × ℚ} {X : Option String × Option JNum}
    (hk : (X.1.getD "", tsCoerce X.2) = k) (hXts : X.2 ≠ some JNum.nan)
    (m : List TrendPoint)
    (hhead : ∀ p₁ j p₂, m = p₁ ++ j :: p₂ → classOf k p₁ = [] →
      dedupKey j = k → exactPair j = X) :
    DedupInv k X m (m.foldl dedupStep ([], [])) := by
  have := dedupInv_fold hk hXts m [] ([], []) (dedupInv_init k X)
    (fun p₁ j p₂ hsplit => hhead p₁ j p₂ (by simpa using hsplit))
  simpa using this

/-- C3: dedup invariant of buildTrustSeries.  Clause 1 (fully general): in
any built series no two surviving points share the same `(groupId, ts)`
pair.  Clause 2: when a local point and an on-chain point collide on a
shared `(groupId, ts)` with an actual numeric timestamp (`===` on a NaN
timestamp never equates, so NaN "collisions" are not collisions in the
source's sense), the surviving point of that class is the local one — it
survives dedup, and any windowed survivor with that pair is local.  The
hypotheses on `onchain` encode what fetchOnChainTrustEvents always
produces: every on-chain point carries a groupId, and points with numeric
`ts` precede the null/NaN-`ts` remainder (`withTs.sort(...).concat(withoutTs)`). -/
theorem buildTrustSeries_dedup_local_wins
    (onchain localPts : List TrendPoint)
    (hOnGid : ∀ p ∈ onchain, p.groupId ≠ none)
    (hOnOrder : ∃ ons offs, onchain = ons ++ offs ∧
        (∀ p ∈ ons, ∃ q, p.ts = some (JNum.num q)) ∧
        (∀ p ∈ offs, ∀ q, p.ts ≠ some (JNum.num q)))
    (L O : TrendPoint) (hL : L ∈ localPts) (hO : O ∈ onchain)
    (hLsrc : L.source = "local")
    (t : ℚ) (hLt : L.ts = some (JNum.num t))
    (hg : O.groupId = L.groupId) (hts : O.ts = L.ts) :
    (∀ on2 loc2 : List TrendPoint, (buildTrustSeries on2 loc2).Pairwise
        (fun a b => ¬(a.groupId = b.groupId ∧ a.ts = b.ts))) ∧
    (∃ e ∈ dedupSeries (sortByTs (onchain ++ localPts)),
        e.groupId = L.groupId ∧ e.ts = L.ts ∧ e.source = "local") ∧
    (∀ e ∈ buildTrustSeries onchain localPts,
        e.groupId = L.groupId → e.ts = L.ts → e.source = "local") := by
  -- Clause 1, for arbitrary inputs.
  have hwindow : ∀ l : List TrendPoint, List.Sublist (lastWindow l) l := by
    intro l
    unfold lastWindow
    split
    · exact List.Sublist.refl _
    · exact List.drop_sublist _ _
  have clause1 : ∀ on2 loc2 : List TrendPoint, (buildTrustSeries on2 loc2).Pairwise
      (fun a b => ¬(a.groupId = b.groupId ∧ a.ts = b.ts)) := by
    intro on2 loc2
    have hnd := dedupSeries_key_nodup (sortByTs (on2 ++ loc2))
    have hpw : (dedupSeries (sortByTs (on2 ++ loc2))).Pairwise
        (fun a b => dedupKey a ≠ dedupKey b) := List.pairwise_map.1 hnd
    have hsub : List.Sublist (buildTrustSeries on2 loc2) (dedupSeries (sortByTs (on2 ++ loc2))) :=
      hwindow _
    refine (hpw.sublist hsub).imp ?_
    intro a b hne hc
    exact hne (by rw [dedupKey, dedupKey, hc.1, hc.2])
  -- Clause 2 setup: the tracked key class and exact identity.
  set X : Option String × Option JNum := (L.groupId, L.ts) with hXdef
  set k : String × ℚ := dedupKey L with hkdef
  have hk : (X.1.getD "", tsCoerce X.2) = k := rfl
  have hXts : X.2 ≠ some JNum.nan := by rw [hXdef]; simp [hLt]
  have htsL : tsCoerce L.ts = t := by rw [hLt]; rfl
  have hOk : dedupKey O = k := by rw [hkdef, dedupKey, dedupKey, hg, hts]
  set m : List TrendPoint := sortByTs (onchain ++ localPts) with hmdef
  have hclassm : classOf k m = classOf k onchain ++ classOf k localPts := by
    rw [hmdef, classOf_sortByTs, classOf_append]
  obtain ⟨ons, offs, honsplit, hons, hoffs⟩ := hOnOrder
  have hOons : O ∈ ons := by
    rcases List.mem_append.1 (honsplit ▸ hO) with h | h
    · exact h
    · exact absurd (hts.trans hLt) (hoffs O h t)
  -- The head of the k-class of the merged sorted list carries the pair X.
  have hhead : ∀ p₁ j p₂, m = p₁ ++ j :: p₂ → classOf k p₁ = [] →
      dedupKey j = k → exactPair j = X := by
    intro p₁ j p₂ hsplit hcls hjk
    have h1 : classOf k m = j :: classOf k p₂ := by
      rw [hsplit, classOf_append, hcls, List.nil_append, classOf_cons_of_key hjk]
    have h2 : classOf k onchain = classOf k ons ++ classOf k offs := by
      rw [honsplit, classOf_append]
    have hOons' : O ∈ classOf k ons := mem_classOf.2 ⟨hOons, hOk⟩
    obtain ⟨F, Fs, hF⟩ : ∃ F Fs, classOf k ons = F :: Fs := by
      cases hc : classOf k ons with
      | nil => rw [hc] at hOons'; simp at hOons'
      | cons F Fs => exact ⟨F, Fs, rfl⟩
    have hjF : j = F := by
      have hform : classOf k m =
          F :: (Fs ++ (classOf k offs ++ classOf k localPts)) := by
        rw [hclassm, h2, hF]; simp
      have hcc := h1.symm.trans hform
      have := congrArg List.head? hcc
      simpa using this
    rw [hjF]
    have hFmem := hF ▸ List.mem_cons_self F Fs
    obtain ⟨hFons, hFk⟩ := mem_classOf.1 hFmem
    -- components of the key equality
    have hFg : F.groupId.getD "" = L.groupId.getD "" := by
      have := congrArg Prod.fst hFk
      rw [hkdef] at this
      exact this
    have hFt : tsCoerce F.ts = t := by
      have := congrArg Prod.snd hFk
      rw [hkdef] at this
      simpa [dedupKey, htsL] using this
    -- on-chain groupIds are present, so the getD equality is an equality
    have hFon : F ∈ onchain := honsplit ▸ List.mem_append_left _ hFons
    obtain ⟨s, hFs⟩ : ∃ s, F.groupId = some s := by
      cases hFgid : F.groupId with
      | none => exact absurd hFgid (hOnGid F hFon)
      | some s => exact ⟨s, rfl⟩
    obtain ⟨g, hLg⟩ : ∃ g, L.groupId = some g := by
      cases hLgid : L.groupId with
      | none => exact absurd (hg.trans hLgid) (hOnGid O hO)
      | some g => exact ⟨g, rfl⟩
    have hsg : s = g := by
      rw [hFs, hLg] at hFg
      simpa using hFg
    -- ons points have numeric ts, pinned to t by the key
    obtain ⟨q, hFq⟩ := hons F hFons
    have hqt : q = t := by
      rw [hFq] at hFt
      simpa [tsCoerce] using hFt
    -- assemble
    rw [exactPair, hXdef, hFs, hsg, ← hLg, hFq, hqt, ← hLt]
  -- Run the fold invariant over the whole merged list.
  have inv := dedupInv_main hk hXts m hhead
  have hLm : L ∈ m := by
    rw [hmdef]
    exact mem_sortByTs.2 (List.mem_append_right _ hL)
  have hLcls : classOf k m ≠ [] := by
    intro hc
    have : L ∈ classOf k m := mem_classOf.2 ⟨hLm, rfl⟩
    rw [hc] at this
    simp at this
  have hded : dedupSeries m = (m.foldl dedupStep ([], [])).1 := rfl
  obtain ⟨e, he, hek⟩ := inv.entry_iff.2 hLcls
  have heX : exactPair e = X := inv.entry_exact e he hek
  have hlocal := inv.entry_local ⟨L, hLm, rfl, hLsrc, rfl⟩
  refine ⟨clause1, ⟨e, by rw [hded]; exact he, ?_, ?_, hlocal e he hek⟩, ?_⟩
  · exact congrArg Prod.fst heX
  · exact congrArg Prod.snd heX
  · intro e' he' hg' hts'
    have hsub : List.Sublist (buildTrustSeries onchain localPts) (dedupSeries m) := hwindow _
    have he'm : e' ∈ (m.foldl dedupStep ([], [])).1 := by
      rw [← hded]
      exact hsub.subset he'
    have hk' : dedupKey e' = k := by rw [hkdef, dedupKey, dedupKey, hg', hts']
    exact hlocal e' he'm hk'

/-- Witness for C3 at a concrete collision: one on-chain and one local
point of group "g" at timestamp 5 — the local one survives dedup. -/
theorem buildTrustSeries_dedup_local_wins_witness :
    (∃ e ∈ dedupSeries (sortByTs ([c3On] ++ [c3Loc])),
        e.groupId = c3Loc.groupId ∧ e.ts = c3Loc.ts ∧ e.source = "local") ∧
    (∀ e ∈ buildTrustSeries [c3On] [c3Loc],
        e.groupId = c3Loc.groupId → e.ts = c3Loc.ts → e.source = "local") :=
  (buildTrustSeries_dedup_local_wins [c3On] [c3Loc]
    (by intro p hp; rw [List.mem_singleton.1 hp]; simp [c3On])
    ⟨[c3On], [], rfl,
      by intro p hp; rw [List.mem_singleton.1 hp]; exact ⟨5, rfl⟩,
      by simp⟩
    c3Loc c3On (List.mem_singleton_self _) (List.mem_singleton_self _)
    rfl 5 rfl rfl rfl).2

/-! ## C4: canonical serialization is insertion-order independent -/

theorem pairwise_and {α : Type} {R S : α → α → Prop} {l : List α}
    (hR : l.Pairwise R) (hS : l.Pairwise S) :
    l.Pairwise fun a b => R a b ∧ S a b := by
  induction l with
  | nil => exact .nil
  | cons x xs ih =>
    rcases List.pairwise_cons.1 hR with ⟨hR1, hR2⟩
    rcases List.pairwise_cons.1 hS with ⟨hS1, hS2⟩
    exact List.pairwise_cons.2 ⟨fun b hb => ⟨hR1 b hb, hS1 b hb⟩, ih hR2 hS2⟩

/-- With distinct keys, sorting by key is a function of the field multiset:
any permutation sorts to the same list. -/
theorem sortFields_eq_of_perm {f₁ f₂ : List (String × Json)}
    (hnd : (f₁.map Prod.fst).Nodup) (hp : f₁.Perm f₂) :
    sortFields f₁ = sortFields f₂ := by
  haveI ha : IsAntisymm (String × Json) (fun a b => a.1 < b.1) :=
    ⟨fun a b h₁ h₂ => absurd (lt_trans h₁ h₂) (lt_irrefl _)⟩
  haveI ht : IsTotal (String × Json) fieldLE := ⟨fun a b => le_total a.1 b.1⟩
  haveI htr : IsTrans (String × Json) fieldLE := ⟨fun _ _ _ h₁ h₂ => le_trans h₁ h₂⟩
  have hstrict : ∀ (l : List (String × Json)), (l.map Prod.fst).Nodup →
      (sortFields l).Sorted (fun a b => a.1 < b.1) := by
    intro l hl
    have hs : (sortFields l).Sorted fieldLE := List.sorted_insertionSort fieldLE l
    have hndl : ((sortFields l).map Prod.fst).Nodup :=
      (List.Perm.nodup_iff ((List.perm_insertionSort fieldLE l).map Prod.fst)).2 hl
    have hne : (sortFields l).Pairwise (fun a b => a.1 ≠ b.1) :=
      List.pairwise_map.1 hndl
    exact (pairwise_and hs hne).imp fun h => lt_of_le_of_ne h.1 h.2
  have hnd₂ : (f₂.map Prod.fst).Nodup :=
    (List.Perm.nodup_iff (hp.map Prod.fst)).1 hnd
  exact List.eq_of_perm_of_sorted
    ((List.perm_insertionSort fieldLE f₁).trans
      (hp.trans (List.perm_insertionSort fieldLE f₂).symm))
    (hstrict f₁ hnd) (hstrict f₂ hnd₂)

/-- orderedInsert only inspects keys, so it acts identically on two
key-aligned related lists. -/
theorem forall₂_orderedInsert {R : (String × Json) → (String × Json) → Prop}
    (hR : ∀ a b, R a b → a.1 = b.1) (a b : String × Json) (hab : R a b) :
    ∀ {l₁ l₂}, List.Forall₂ R l₁ l₂ →
      List.Forall₂ R (List.orderedInsert fieldLE a l₁)
        (List.orderedInsert fieldLE b l₂) := by
  intro l₁ l₂ h
  induction h with
  | nil => exact .cons hab .nil
  | @cons x y l₁' l₂' hxy htail ih =>
    by_cases hle : fieldLE a x
    · have hle' : fieldLE b y := by
        unfold fieldLE at hle ⊢
        rw [← hR a b hab, ← hR x y hxy]
        exact hle
      simp only [List.orderedInsert, if_pos hle, if_pos hle']
      exact .cons hab (.cons hxy htail)
    · have hle' : ¬ fieldLE b y := by
        unfold fieldLE at hle ⊢
        rw [← hR a b hab, ← hR x y hxy]
        exact hle
      simp only [List.orderedInsert, if_neg hle, if_neg hle']
      exact .cons hxy ih

theorem forall₂_sortFields {R : (String × Json) → (String × Json) → Prop}
    (hR : ∀ a b, R a b → a.1 = b.1) :
    ∀ {l₁ l₂}, List.Forall₂ R l₁ l₂ →
      List.Forall₂ R (sortFields l₁) (sortFields l₂) := by
  intro l₁ l₂ h
  induction h with
  | nil => exact .nil
  | @cons x y l₁' l₂' hxy htail ih =>
    show List.Forall₂ R (List.orderedInsert fieldLE x (sortFields l₁'))
      (List.orderedInsert fieldLE y (sortFields l₂'))
    exact forall₂_orderedInsert hR x y hxy ih

theorem stringifyElems_congr : ∀ {l₁ l₂ : List Json},
    List.Forall₂ (fun a b => stableStringify a = stableStringify b) l₁ l₂ →
    stringifyElems l₁ = stringifyElems l₂ := by
  intro l₁
  induction l₁ with
  | nil => intro l₂ h; cases h; rfl
  | cons v vs ih =>
    intro l₂ h
    cases h with
    | @cons _ w _ ws hv htail =>
      cases vs with
      | nil => cases htail; simp [stringifyElems, hv]
      | cons v2 vs2 =>
        cases htail with
        | @cons _ w2 _ ws2 h2 h3 =>
          have hrest := ih (List.Forall₂.cons h2 h3)
          simp only [stringifyElems]
          rw [hv, hrest]

theorem stringifyFields_congr : ∀ {l₁ l₂ : List (String × Json)},
    List.Forall₂ (fun a b : String × Json =>
      a.1 = b.1 ∧ stableStringify a.2 = stableStringify b.2) l₁ l₂ →
    stringifyFields l₁ = stringifyFields l₂ := by
  intro l₁
  induction l₁ with
  | nil => intro l₂ h; cases h; rfl
  | cons a rest ih =>
    intro l₂ h
    cases h with
    | @cons _ b _ bs hab htail =>
      obtain ⟨ka, va⟩ := a
      obtain ⟨kb, vb⟩ := b
      obtain ⟨hk1, hv1⟩ := hab
      simp only at hk1 hv1
      cases rest with
      | nil =>
        cases htail
        simp [stringifyFields, hk1, hv1]
      | cons a2 rest2 =>
        cases htail with
        | @cons _ b2 _ bs2 h2 h3 =>
          have hrest := ih (List.Forall₂.cons h2 h3)
          obtain ⟨ka2, va2⟩ := a2
          obtain ⟨kb2, vb2⟩ := b2
          simp only [stringifyFields]
          rw [hk1, hv1, hrest]

mutual
theorem stableStringify_permEq (v w : Json) (h : JsonPerm v w)
    (hn : NodupKeys v) : stableStringify v = stableStringify w := by
  cases v with
  | null =>
    cases w <;> simp only [JsonPerm] at h
    rfl
  | bool a =>
    cases w <;> simp only [JsonPerm] at h
    subst h; rfl
  | num a =>
    cases w <;> simp only [JsonPerm] at h
    subst h; rfl
  | str a =>
    cases w <;> simp only [JsonPerm] at h
    subst h; rfl
  | arr l₁ =>
    cases w with
    | arr l₂ =>
      simp only [JsonPerm] at h
      have hn' : ∀ x ∈ l₁, NodupKeys x := by
        have := hn
        simp only [NodupKeys] at this
        exact this
      have F := stringifyList_permEq l₁ l₂ h hn'
      simp only [stableStringify]
      rw [stringifyElems_congr F]
    | null => simp only [JsonPerm] at h
    | bool _ => simp only [JsonPerm] at h
    | num _ => simp only [JsonPerm] at h
    | str _ => simp only [JsonPerm] at h
    | obj _ => simp only [JsonPerm] at h
  | obj f₁ =>
    cases w with
    | obj f₂ =>
      simp only [JsonPerm] at h
      obtain ⟨f', hperm, hfields⟩ := h
      have hn' : (f₁.map Prod.fst).Nodup ∧ ∀ kv ∈ f₁, NodupKeys kv.2 := by
        have := hn
        simp only [NodupKeys] at this
        exact this
      have hn2' : ∀ kv ∈ f', NodupKeys kv.2 := fun kv hkv =>
        hn'.2 kv (hperm.symm.subset hkv)
      have F := stringifyFields_permEq f' f₂ hfields hn2'
      have hsorted := forall₂_sortFields (fun a b hab => hab.1) F
      have heq1 : sortFields f₁ = sortFields f' := sortFields_eq_of_perm hn'.1 hperm
      simp only [stableStringify]
      rw [heq1, stringifyFields_congr hsorted]
    | null => simp only [JsonPerm] at h
    | bool _ => simp only [JsonPerm] at h
    | num _ => simp only [JsonPerm] at h
    | str _ => simp only [JsonPerm] at h
    | arr _ => simp only [JsonPerm] at h
termination_by sizeOf w
decreasing_by
  all_goals simp_wf
  all_goals try subst_vars
  all_goals
    first
      | omega
      | (obtain ⟨kb, vb⟩ := b; simp <;> omega)
      | (simp <;> omega)

theorem stringifyList_permEq (vs ws : List Json) (h : JsonPermList vs ws)
    (hn : ∀ x ∈ vs, NodupKeys x) :
    List.Forall₂ (fun a b => stableStringify a = stableStringify b) vs ws := by
  cases vs with
  | nil =>
    cases ws with
    | nil => exact .nil
    | cons w ws' => simp only [JsonPermList] at h
  | cons v vs' =>
    cases ws with
    | nil => simp only [JsonPermList] at h
    | cons w ws' =>
      simp only [JsonPermList] at h
      exact .cons
        (stableStringify_permEq v w h.1 (hn v (List.mem_cons_self v vs')))
        (stringifyList_permEq vs' ws' h.2
          (fun x hx => hn x (List.mem_cons_of_mem v hx)))
termination_by sizeOf ws
decreasing_by
  all_goals simp_wf
  all_goals try subst_vars
  all_goals
    first
      | omega
      | (obtain ⟨kb, vb⟩ := b; simp <;> omega)
      | (simp <;> omega)

theorem stringifyFields_permEq (fs gs : List (String × Json))
    (h : JsonPermFields fs gs) (hn : ∀ kv ∈ fs, NodupKeys kv.2) :
    List.Forall₂ (fun a b : String × Json =>
      a.1 = b.1 ∧ stableStringify a.2 = stableStringify b.2) fs gs := by
  cases fs with
  | nil =>
    cases gs with
    | nil => exact .nil
    | cons b bs => simp only [JsonPermFields] at h
  | cons a rest =>
    cases gs with
    | nil => simp only [JsonPermFields] at h
    | cons b bs =>
      simp only [JsonPermFields] at h
      exact .cons ⟨h.1, stableStringify_permEq a.2 b.2 h.2.1
          (hn a (List.mem_cons_self a rest))⟩
        (stringifyFields_permEq rest bs h.2.2
          (fun kv hkv => hn kv (List.mem_cons_of_mem a hkv)))
termination_by sizeOf gs
decreasing_by
  all_goals simp_wf
  all_goals try subst_vars
  all_goals
    first
      | omega
      | (obtain ⟨kb, vb⟩ := b; simp <;> omega)
      | (simp <;> omega)
end

/-- C4: for every payload and every permutation of the insertion order of
keys in any of its maps (a JS object cannot carry duplicate keys, hence the
NodupKeys hypothesis), stableStringify produces an identical string and
keccakHash — for any digest primitive — an identical hash. -/
theorem stableStringify_insertion_order_independent
    (keccak : String → String) (v w : Json)
    (h : JsonPerm v w) (hn : NodupKeys v) :
    stableStringify v = stableStringify w ∧
    keccakHash keccak v = keccakHash keccak w := by
  have hs := stableStringify_permEq v w h hn
  exact ⟨hs, by rw [keccakHash, keccakHash, hs]⟩

/-- Witness for C4 at a concrete two-field object with its fields given in
the two insertion orders. -/
theorem stableStringify_insertion_order_independent_witness :
    stableStringify c4V = stableStringify c4W ∧
    keccakHash id c4V = keccakHash id c4W := by
  apply stableStringify_insertion_order_independent id c4V c4W
  · show JsonPerm (.obj [("b", .num 1), ("a", .str "x")])
      (.obj [("a", .str "x"), ("b", .num 1)])
    simp only [JsonPerm]
    refine ⟨[("a", Json.str "x"), ("b", Json.num 1)], ?_, ?_⟩
    · exact List.Perm.swap _ _ _
    · simp [JsonPermFields, JsonPerm]
  · show NodupKeys (.obj [("b", .num 1), ("a", .str "x")])
    simp [NodupKeys]

end IoTTrust
